import Mathlib

/-!
Verification of the tool-invocation and conversational-context subsystem of
the AiCode compact CLI (`aicode_compact.py`).

The embedding translates the Python source into Lean definitions:

* character-level models of `str.split()`, `str.strip('"\'')` and
  `str.split('=', 1)` as used by `_execute_tool`'s argument parsing;
* the scan `re.findall(r'TOOL:\s*(\w+)\s*([^\n]*)', text, re.IGNORECASE)`
  used by `_execute_tool_request`, modelled with Python's leftmost /
  greedy matching semantics (`\s` and `\w` are modelled on their ASCII
  ranges, which covers every input the repository manipulates);
* the tool dispatcher `_execute_tool`, with the process environment
  (file system, subprocess, directory listing, Python parser) abstracted
  into an `Env` record of fallible operations, exceptions becoming
  `Except.error` values carrying `str(e)`;
* the code analyzer `_analyze_code_content` over an AST type mirroring
  the `ast` nodes the analyzer inspects, with `ast.walk`'s breadth-first
  traversal reproduced exactly;
* the message assembly and history update of `_process_conversation`,
  including Python's `list.insert(-1, x)` and the `requests` round trip.
-/

namespace AiCode

/-- ASCII range of Python's `\s` class and of `str.split()` whitespace:
space, tab, newline, carriage return, vertical tab, form feed. -/
def isPySpace (c : Char) : Bool :=
  c = ' ' || c = '\t' || c = '\n' || c = '\r' || c = '\x0b' || c = '\x0c'

/-- ASCII range of Python's `\w` class: letters, digits, underscore. -/
def isWordChar (c : Char) : Bool :=
  ('a' ≤ c && c ≤ 'z') || ('A' ≤ c && c ≤ 'Z') || ('0' ≤ c && c ≤ '9') || c = '_'

/-- The quote characters removed by `value.strip('"\'')`. -/
def isQuote (c : Char) : Bool :=
  c = '"' || c = '\''

/-- Accumulator-based core of `str.split()` (split on whitespace runs,
no empty fields). `acc` holds the characters of the current word, reversed. -/
def pySplitAux : List Char → List Char → List (List Char)
  | [], acc => if acc = [] then [] else [acc.reverse]
  | c :: cs, acc =>
    if isPySpace c then
      if acc = [] then pySplitAux cs [] else acc.reverse :: pySplitAux cs []
    else pySplitAux cs (c :: acc)

/-- Python `s.split()`: whitespace-delimited tokens of `s`. -/
def pySplit (l : List Char) : List (List Char) :=
  pySplitAux l []

/-- Python `value.strip('"\'')`: remove leading and trailing quote
characters (any number of them, single or double). -/
def stripQuotes (l : List Char) : List Char :=
  ((l.dropWhile isQuote).reverse.dropWhile isQuote).reverse

/-- First component of Python `tok.split('=', 1)`: the part before the
first `'='`. -/
def eqKey (tok : List Char) : List Char :=
  tok.takeWhile (fun c => c ≠ '=')

/-- Second component of Python `tok.split('=', 1)`: the part after the
first `'='`. -/
def eqVal (tok : List Char) : List Char :=
  (tok.dropWhile (fun c => c ≠ '=')).tail

/-- Argument parsing of `_execute_tool` (lines 315–321): build a dict by
iterating over the whitespace-split tokens of `args_str`; a token with no
`'='` is skipped; otherwise split at the first `'='` and bind the key to
the quote-stripped value, later bindings overwriting earlier ones.
The dict is modelled as a partial map `List Char → Option (List Char)`. -/
def parseArgs (argsStr : List Char) : List Char → Option (List Char) :=
  if argsStr = [] then fun _ => none
  else
    (pySplit argsStr).foldl
      (fun d tok =>
        if tok.contains '=' then
          Function.update d (eqKey tok) (some (stripQuotes (eqVal tok)))
        else d)
      (fun _ => none)

/-- Python `args.get(key, default)` on the parsed dict, at `String` level. -/
def pyGetD (d : List Char → Option (List Char)) (key dflt : String) : String :=
  match d key.toList with
  | some v => ⟨v⟩
  | none => dflt

/-- The key/value pairs a raw argument string contributes, in token order:
the declarative counterpart of the parsing loop. -/
def argTokenPairs (argsStr : List Char) : List (List Char × List Char) :=
  (pySplit argsStr).filterMap
    (fun tok =>
      if tok.contains '=' then some (eqKey tok, stripQuotes (eqVal tok))
      else none)

/-- Last-occurrence lookup in a list of key/value pairs. -/
def lookupLast (ps : List (List Char × List Char)) (k : List Char) :
    Option (List Char) :=
  (ps.reverse.find? (fun p => p.1 = k)).map (·.2)

/-! ### The tool-call scan of `_execute_tool_request`

`_execute_tool_request` runs
`re.findall(r'TOOL:\s*(\w+)\s*([^\n]*)', user_input, re.IGNORECASE)`.
Because the branches of the pattern after the literal `TOOL:` are greedy
quantifiers over character classes that leave a pattern suffix which can
always match, a match attempt at an occurrence of `TOOL:` is equivalent to:
skip the maximal whitespace run (newlines included), read the maximal
nonempty word-character run as the name (fail if it is empty), skip the
maximal whitespace run, and take the rest of the current line as the raw
arguments.  `findall` scans for the leftmost occurrence and resumes after
the end of each successful match, or one character further on failure. -/

/-- Case-insensitive character comparison, as `re.IGNORECASE` applies it. -/
def ciEq (a b : Char) : Bool :=
  a.toLower = b.toLower

/-- Does the text start with the literal `TOOL:`, case-insensitively? -/
def startsWithTool : List Char → Bool
  | a :: b :: c :: d :: e :: _ =>
    ciEq a 'T' && ciEq b 'O' && ciEq c 'O' && ciEq d 'L' && e = ':'
  | _ => false

/-- Does the text contain an occurrence of `TOOL:` in any letter case? -/
def hasToolCI : List Char → Bool
  | [] => false
  | c :: cs => startsWithTool (c :: cs) || hasToolCI cs

/-- Attempt the pattern remainder `\s*(\w+)\s*([^\n]*)` on the text that
follows an occurrence of `TOOL:`.  On success, return the two captured
groups (name, raw arguments) and the text after the match end. -/
def matchToolTail (l : List Char) : Option ((List Char × List Char) × List Char) :=
  let afterWs := l.dropWhile isPySpace
  let name := afterWs.takeWhile isWordChar
  if name = [] then none
  else
    let afterWs2 := (afterWs.dropWhile isWordChar).dropWhile isPySpace
    some ((name, afterWs2.takeWhile (fun c => c ≠ '\n')),
          afterWs2.dropWhile (fun c => c ≠ '\n'))

theorem length_dropWhile_le (p : Char → Bool) (l : List Char) :
    (l.dropWhile p).length ≤ l.length := by
  induction l with
  | nil => simp [List.dropWhile]
  | cons c cs ih =>
    simp only [List.dropWhile]
    split
    · exact Nat.le_trans ih (Nat.le_succ _)
    · simp

theorem matchToolTail_rest_length {l rest : List Char}
    {inv : List Char × List Char}
    (h : matchToolTail l = some (inv, rest)) : rest.length ≤ l.length := by
  unfold matchToolTail at h
  by_cases hn : (l.dropWhile isPySpace).takeWhile isWordChar = []
  · simp [hn] at h
  · simp only [hn, if_false, Option.some.injEq, Prod.mk.injEq] at h
    have h1 := length_dropWhile_le (fun c => c ≠ '\n')
      (((l.dropWhile isPySpace).dropWhile isWordChar).dropWhile isPySpace)
    have h2 := length_dropWhile_le isPySpace
      ((l.dropWhile isPySpace).dropWhile isWordChar)
    have h3 := length_dropWhile_le isWordChar (l.dropWhile isPySpace)
    have h4 := length_dropWhile_le isPySpace l
    have hrest := congrArg List.length h.2
    omega

/-- The complete scan of `re.findall` for the tool pattern: emit each
(name, raw-arguments) pair in match order. -/
def scanToolCalls : List Char → List (List Char × List Char)
  | [] => []
  | c :: cs =>
    if startsWithTool (c :: cs) then
      match h : matchToolTail ((c :: cs).drop 5) with
      | some (inv, rest) => inv :: scanToolCalls rest
      | none => scanToolCalls cs
    else scanToolCalls cs
termination_by l => l.length
decreasing_by
  · have := matchToolTail_rest_length h
    simp at this ⊢
    omega
  · simp
  · simp

/-- `_execute_tool_request`'s extraction of tool invocations, at `String`
level: the list of `(tool_name, args_str)` pairs the loop body receives. -/
def findToolCalls (text : String) : List (String × String) :=
  (scanToolCalls text.toList).map (fun p => (⟨p.1⟩, ⟨p.2⟩))

/-! Spec-side definitions for the parser claim, written from the
specification's words "each line is parsed independently": split the
input at newlines and look for one invocation per line, whose raw
arguments are the remainder of that same line. -/

/-- Split a character list at `'\n'` into its lines. -/
def splitOnNl : List Char → List (List Char)
  | [] => [[]]
  | c :: cs =>
    if c = '\n' then [] :: splitOnNl cs
    else
      match splitOnNl cs with
      | l :: ls => (c :: l) :: ls
      | [] => [[c]]

/-- Spec-side: the invocation a single line yields, when its first
`TOOL:` occurrence is followed (on that line) by an identifier. -/
def lineToolInv : List Char → Option (List Char × List Char)
  | [] => none
  | c :: cs =>
    if startsWithTool (c :: cs) then
      let afterWs := ((c :: cs).drop 5).dropWhile isPySpace
      let name := afterWs.takeWhile isWordChar
      if name = [] then none
      else some (name, (afterWs.dropWhile isWordChar).dropWhile isPySpace)
    else lineToolInv cs

/-- Spec-side: parse each line of the input independently. -/
def lineToolCalls (text : String) : List (String × String) :=
  ((splitOnNl text.toList).filterMap lineToolInv).map (fun p => (⟨p.1⟩, ⟨p.2⟩))

/-! ### The code analyzer `_analyze_code_content`

The analyzer feeds the source text to `ast.parse` and walks the resulting
tree with `ast.walk`, which performs a breadth-first traversal (a FIFO
queue, each dequeued node enqueueing its children in order).  The AST is
modelled by the node kinds the loop distinguishes; every other node kind
is `Ast.other`, keeping only its child list.  A `FunctionDef` or
`ClassDef` value carries the node's full child list (argument nodes,
body statements, decorators) in `ast.iter_child_nodes` order; none of
the extra children can contain a named definition in Python, so only
body statements matter for the collected names. -/

inductive Ast where
  | module : List Ast → Ast
  | functionDef : String → List Ast → Ast
  | classDef : String → List Ast → Ast
  | importStmt : List String → Ast
  | importFrom : Option String → Ast
  | other : List Ast → Ast

/-- `ast.iter_child_nodes`: the direct children of a node. -/
def Ast.children : Ast → List Ast
  | .module body => body
  | .functionDef _ body => body
  | .classDef _ body => body
  | .importStmt _ => []
  | .importFrom _ => []
  | .other kids => kids

mutual

def astSize : Ast → Nat
  | .module body => 1 + astSizeList body
  | .functionDef _ body => 1 + astSizeList body
  | .classDef _ body => 1 + astSizeList body
  | .importStmt _ => 1
  | .importFrom _ => 1
  | .other kids => 1 + astSizeList kids

def astSizeList : List Ast → Nat
  | [] => 0
  | a :: as => astSize a + astSizeList as

end

theorem astSizeList_append (p q : List Ast) :
    astSizeList (p ++ q) = astSizeList p + astSizeList q := by
  induction p with
  | nil => simp [astSizeList]
  | cons a as ih => simp [astSizeList, ih]; omega

theorem astSizeList_children_lt (n : Ast) :
    astSizeList n.children < astSize n := by
  cases n <;> simp [Ast.children, astSize, astSizeList]

theorem astSizeList_enqueue_lt (n : Ast) (q : List Ast) :
    astSizeList (q ++ n.children) < astSizeList (n :: q) := by
  have h1 := astSizeList_children_lt n
  simp only [astSizeList, astSizeList_append]
  omega

/-- `ast.walk` processing of a FIFO queue: dequeue the front node, emit
it, and enqueue its children at the back. -/
def walkAux : List Ast → List Ast
  | [] => []
  | n :: q => n :: walkAux (q ++ n.children)
termination_by q => astSizeList q
decreasing_by
  exact astSizeList_enqueue_lt _ _

/-- `ast.walk(tree)`: the tree's nodes in breadth-first order, the root
first. -/
def walk (t : Ast) : List Ast :=
  walkAux [t]

/-- Python `str(m)` of the optional `node.module` of an `ImportFrom`
(`None` prints as `None` inside the f-string). -/
def pyStrOptModule : Option String → String
  | some m => m
  | none => "None"

/-- One step of the analyzer's collection loop: extend the accumulated
(functions, classes, imports) triple by one visited node. -/
def collectStep (acc : List String × List String × List String) (n : Ast) :
    List String × List String × List String :=
  match n with
  | .functionDef name _ => (acc.1 ++ [name], acc.2.1, acc.2.2)
  | .classDef name _ => (acc.1, acc.2.1 ++ [name], acc.2.2)
  | .importStmt names => (acc.1, acc.2.1, acc.2.2 ++ names)
  | .importFrom m => (acc.1, acc.2.1, acc.2.2 ++ ["from " ++ pyStrOptModule m])
  | _ => acc

/-- The analyzer's collection loop over `ast.walk(tree)`. -/
def collectNames (nodes : List Ast) : List String × List String × List String :=
  nodes.foldl collectStep ([], [], [])

/-- The `functions` list the analyzer accumulates for a tree. -/
def walkFunctionNames (t : Ast) : List String :=
  (collectNames (walk t)).1

/-- The `classes` list the analyzer accumulates for a tree. -/
def walkClassNames (t : Ast) : List String :=
  (collectNames (walk t)).2.1

/-- The `imports` list the analyzer accumulates for a tree. -/
def walkImportNames (t : Ast) : List String :=
  (collectNames (walk t)).2.2

/-- `_analyze_code_content` (lines 364–398), abstracting the call to
`ast.parse` into a `parse` argument that either produces the tree or the
`str(e)` of the `SyntaxError` it raises. -/
def analyzeCodeContent (parse : String → Except String Ast) (code : String) :
    String :=
  match parse code with
  | .error e => "Syntax Error: " ++ e
  | .ok tree =>
    let c := collectNames (walk tree)
    let analysis := ["Lines of code: " ++ toString (pySplit code.toList).length]
    let analysis := if c.1 ≠ [] then
      analysis ++ ["Functions: " ++ String.intercalate ", " c.1] else analysis
    let analysis := if c.2.1 ≠ [] then
      analysis ++ ["Classes: " ++ String.intercalate ", " c.2.1] else analysis
    let analysis := if c.2.2 ≠ [] then
      analysis ++ ["Imports: " ++ String.intercalate ", " (c.2.2.take 5)]
      else analysis
    String.intercalate "\n" analysis

/-- The function name a single node contributes, if any. -/
def fnName? : Ast → Option String
  | .functionDef n _ => some n
  | _ => none

/-- The class name a single node contributes, if any. -/
def clsName? : Ast → Option String
  | .classDef n _ => some n
  | _ => none

/-- The import names a single node contributes. -/
def impNames : Ast → List String
  | .importStmt ns => ns
  | .importFrom m => ["from " ++ pyStrOptModule m]
  | _ => []

mutual

/-- All nodes of a tree in pre-order depth-first (document) order. -/
def dfsNodes : Ast → List Ast
  | .module body => .module body :: dfsNodesList body
  | .functionDef n body => .functionDef n body :: dfsNodesList body
  | .classDef n body => .classDef n body :: dfsNodesList body
  | .importStmt ns => [.importStmt ns]
  | .importFrom m => [.importFrom m]
  | .other kids => .other kids :: dfsNodesList kids

def dfsNodesList : List Ast → List Ast
  | [] => []
  | a :: as => dfsNodes a ++ dfsNodesList as

end

/-- Spec-side definition, written from the specification's words
"collects, in document order, every function definition's name": the
function names read off a pre-order depth-first traversal, i.e. each
name at the position of its defining statement in the source text. -/
def docFunctionNames (t : Ast) : List String :=
  (dfsNodes t).filterMap fnName?

/-- Spec-side: class names in document order. -/
def docClassNames (t : Ast) : List String :=
  (dfsNodes t).filterMap clsName?

/-- Spec-side: import names in document order. -/
def docImportNames (t : Ast) : List String :=
  (dfsNodes t).flatMap impNames

/-- The display form of a successful analysis: the line-count line, then
the Functions/Classes/Imports lines for the non-empty name lists. -/
def analyzeRender (count : Nat) (fns cls imps : List String) : String :=
  String.intercalate "\n"
    (["Lines of code: " ++ toString count]
      ++ (if fns ≠ [] then ["Functions: " ++ String.intercalate ", " fns]
          else [])
      ++ (if cls ≠ [] then ["Classes: " ++ String.intercalate ", " cls]
          else [])
      ++ (if imps ≠ [] then ["Imports: " ++ String.intercalate ", " imps]
          else []))

/-! ### The tool registry and executor `_execute_tool`

The operating-system effects the five tools perform are abstracted into
an environment of fallible operations; an operation's `Except.error`
carries the `str(e)` of the exception the Python call raises, which the
executor's `except Exception` handler renders as a tool-error string.
`runCommand` receives the timeout (in seconds) that `_execute_tool`
passes to `subprocess.run`; a `TimeoutExpired` is one of the error
outcomes.  `parse` is the `ast.parse` front end of the analyzer. -/

structure Env where
  readFile : String → Except String String
  writeFile : String → String → Except String Unit
  runCommand : String → Nat → Except String (Int × String × String)
  listDir : String → Except String (List String)
  parse : String → Except String Ast

/-- `_execute_tool` (lines 313–362): parse the raw arguments, dispatch on
the tool name, catch every fault as an error string. -/
def executeTool (env : Env) (toolName argsStr : String) : String :=
  let args := parseArgs argsStr.toList
  if toolName = "read_file" then
    let path := pyGetD args "path" ""
    if path = "" then "Error: path parameter required"
    else
      match env.readFile path with
      | .ok content => content
      | .error e => "Tool error: " ++ e
  else if toolName = "write_file" then
    let path := pyGetD args "path" ""
    let content := pyGetD args "content" ""
    if path = "" then "Error: path parameter required"
    else
      match env.writeFile path content with
      | .ok _ => "File written: " ++ path
      | .error e => "Tool error: " ++ e
  else if toolName = "execute_command" then
    let command := pyGetD args "command" ""
    if command = "" then "Error: command parameter required"
    else
      match env.runCommand command 30 with
      | .ok r =>
        "Exit code: " ++ toString r.1 ++ "\nOutput: " ++ r.2.1 ++
          "\nError: " ++ r.2.2
      | .error e => "Tool error: " ++ e
  else if toolName = "analyze_code" then
    let code := pyGetD args "code" ""
    if code = "" then "Error: code parameter required"
    else analyzeCodeContent env.parse code
  else if toolName = "list_files" then
    let path := pyGetD args "path" "."
    match env.listDir path with
    | .ok files => String.intercalate "\n" files
    | .error e => "Tool error: " ++ e
  else "Unknown tool: " ++ toolName

/-! ### Message assembly and the conversational turn
(`_process_conversation`, `_get_system_prompt`, `_send_to_model`) -/

/-- A wire message for the completion endpoint. -/
structure Msg where
  role : String
  content : String
deriving DecidableEq

/-- One stored exchange of the conversation history. -/
structure Exchange where
  user : String
  assistant : String
  timestamp : String
deriving DecidableEq

/-- The constant part of `_get_system_prompt`'s base prompt. -/
def systemPromptBase : String :=
  "You are AiCode, a helpful coding assistant optimized for small local models. \nBe concise, practical, and focus on actionable solutions. \n\nAvailable tools: read_file, write_file, execute_command, analyze_code\n\nWhen user asks for file operations or code analysis, suggest using tools like:\nTOOL: read_file path=filename.py\nTOOL: write_file path=filename.py content=\"code here\"\nTOOL: execute_command command=\"python script.py\"\nTOOL: analyze_code code=\"code to analyze\" language=\"python\"\n\nKeep responses under 200 words unless explaining complex concepts."

/-- `_get_system_prompt` (lines 254–273): the base prompt, extended with
the first 10 lines of the loaded context under the fixed heading when the
context is non-empty. -/
def getSystemPrompt (context : List String) : String :=
  if context = [] then systemPromptBase
  else
    systemPromptBase ++ "\n\nProject context:\n" ++
      String.intercalate "\n" (context.take 10)

/-- Python `messages.insert(-1, x)`: insert `x` immediately before the
last element (at index 0 when the list is empty). -/
def pyInsertNeg1 (l : List Msg) (x : Msg) : List Msg :=
  l.take (l.length - 1) ++ x :: l.drop (l.length - 1)

/-- The loop body of lines 235–237: splice one history exchange as a
user/assistant pair before the final user message. -/
def spliceExchange (ms : List Msg) (ex : Exchange) : List Msg :=
  pyInsertNeg1 (pyInsertNeg1 ms ⟨"user", ex.user⟩) ⟨"assistant", ex.assistant⟩

/-- The message assembly of `_process_conversation` (lines 226–237):
start from `[system, user]`, then, when the history is non-empty, splice
in its last 3 exchanges. -/
def buildMessages (sysPrompt : String) (history : List Exchange)
    (userText : String) : List Msg :=
  let messages := [⟨"system", sysPrompt⟩, ⟨"user", userText⟩]
  if history = [] then messages
  else (history.drop (history.length - 3)).foldl spliceExchange messages

/-- The outcome of the `requests.post` round trip in `_send_to_model`:
either an HTTP response (status, and the `choices[i].message.content`
strings when the body has a `choices` array) or a raised
`requests.exceptions.RequestException`. -/
inductive EndpointResult where
  | response (status : Nat) (choices : Option (List String))
  | requestError (msg : String)

/-- `_send_to_model` (lines 275–301): the reply text on a 200 response
with a non-empty `choices` array, `None` otherwise. -/
def sendToModel (r : EndpointResult) : Option String :=
  match r with
  | .response status choices =>
    if status = 200 then
      match choices with
      | some (c :: _) => some c
      | _ => none
    else none
  | .requestError _ => none

/-- The history update of one call to `_process_conversation`
(lines 219–252): a tool request short-circuits before any model call;
otherwise an exchange is appended exactly when `_send_to_model` produced
a truthy (non-`None`, non-empty) reply. -/
def processConversation (history : List Exchange) (userInput : String)
    (resp : EndpointResult) (now : String) : List Exchange :=
  if hasToolCI userInput.toList then history
  else
    match sendToModel resp with
    | some reply =>
      if reply = "" then history
      else history ++ [⟨userInput, reply, now⟩]
    | none => history

/-! ### Concrete material for witnesses -/

instance {ε α : Type} [DecidableEq ε] [DecidableEq α] :
    DecidableEq (Except ε α) := fun x y =>
  match x, y with
  | .ok a, .ok b =>
    if h : a = b then isTrue (by rw [h]) else isFalse (by simp [h])
  | .error a, .error b =>
    if h : a = b then isTrue (by rw [h]) else isFalse (by simp [h])
  | .ok _, .error _ => isFalse (by simp)
  | .error _, .ok _ => isFalse (by simp)

/-- The spec's analyzer example, `"def f(): pass\nclass C: pass\nimport os"`. -/
def exampleCode : String :=
  "def f(): pass\nclass C: pass\nimport os"

/-- `ast.parse` of `exampleCode`: a `FunctionDef` node's children are its
(empty) `arguments` node followed by its body, a `ClassDef`'s children its
body, exactly as `ast.iter_child_nodes` lists them; `Pass` and `arguments`
carry no children and are `Ast.other []`. -/
def exampleAst : Ast :=
  .module
    [.functionDef "f" [.other [], .other []],
     .classDef "C" [.other []],
     .importStmt ["os"]]

/-- A tree with a nested function definition:
`"def f():\n    def g(): pass\ndef h(): pass"`. -/
def nestedAst : Ast :=
  .module
    [.functionDef "f" [.other [], .functionDef "g" [.other [], .other []]],
     .functionDef "h" [.other [], .other []]]

/-- A sample process environment used to instantiate the executor
theorems: one readable file `x`, a failing read elsewhere, an always
successful write, a command `exit 7` that completes and every other
command timing out, a listable current directory, and a parser that
accepts exactly `exampleCode`. -/
def sampleEnv : Env where
  readFile := fun p =>
    if p = "x" then .ok "hello" else .error "[Errno 2] No such file or directory: 'nope'"
  writeFile := fun p _ =>
    if p = "ro.txt" then .error "[Errno 13] Permission denied: 'ro.txt'"
    else .ok ()
  runCommand := fun c t =>
    if c = "exitseven" && t == 30 then .ok (7, "", "")
    else .error "Command 'sleep 60' timed out after 30 seconds"
  listDir := fun p =>
    if p = "." then .ok ["a.py", "b.py"] else .error "[Errno 2] No such file or directory: 'gone'"
  parse := fun s =>
    if s = exampleCode then .ok exampleAst
    else .error "invalid syntax (<unknown>, line 1)"

/-! ### Supporting lemmas -/

theorem pyInsertNeg1_snoc (pre : List Msg) (fin x : Msg) :
    pyInsertNeg1 (pre ++ [fin]) x = pre ++ [x, fin] := by
  unfold pyInsertNeg1
  simp

/-- Message pair a history exchange contributes. -/
def exchangePair (e : Exchange) : List Msg :=
  [⟨"user", e.user⟩, ⟨"assistant", e.assistant⟩]

theorem foldl_spliceExchange (l : List Exchange) (pre : List Msg) (fin : Msg) :
    l.foldl spliceExchange (pre ++ [fin]) =
      pre ++ l.flatMap exchangePair ++ [fin] := by
  induction l generalizing pre with
  | nil => simp
  | cons e es ih =>
    have hstep : spliceExchange (pre ++ [fin]) e =
        (pre ++ exchangePair e) ++ [fin] := by
      rw [spliceExchange, pyInsertNeg1_snoc]
      rw [show pre ++ [Msg.mk "user" e.user, fin] =
        (pre ++ [Msg.mk "user" e.user]) ++ [fin] by simp]
      rw [pyInsertNeg1_snoc]
      simp [exchangePair]
    rw [List.foldl_cons, hstep, ih]
    simp

theorem buildMessages_eq (sys : String) (hist : List Exchange) (u : String) :
    buildMessages sys hist u =
      Msg.mk "system" sys ::
        (hist.drop (hist.length - 3)).flatMap exchangePair ++ [Msg.mk "user" u] := by
  rw [buildMessages]
  by_cases h : hist = []
  · subst h
    simp
  · simp only [if_neg h]
    have := foldl_spliceExchange (hist.drop (hist.length - 3))
      [Msg.mk "system" sys] (Msg.mk "user" u)
    simpa using this

theorem dropWhile_all_false (p : Char → Bool) (l : List Char)
    (h : ∀ c ∈ l, p c = false) : l.dropWhile p = l := by
  cases l with
  | nil => rfl
  | cons c cs => simp [List.dropWhile_cons, h c (by simp)]

theorem takeWhile_all_front (p : Char → Bool) (w r : List Char)
    (h : ∀ c ∈ w, p c = true) :
    (w ++ r).takeWhile p = w ++ r.takeWhile p := by
  induction w with
  | nil => simp
  | cons c cs ih =>
    have hc : p c = true := h c (by simp)
    simp only [List.cons_append, List.takeWhile_cons, hc, if_true]
    rw [ih (fun d hd => h d (by simp [hd]))]

theorem dropWhile_all_front (p : Char → Bool) (w r : List Char)
    (h : ∀ c ∈ w, p c = true) :
    (w ++ r).dropWhile p = r.dropWhile p := by
  induction w with
  | nil => simp
  | cons c cs ih =>
    have hc : p c = true := h c (by simp)
    simp only [List.cons_append, List.dropWhile_cons, hc, if_true]
    exact ih (fun d hd => h d (by simp [hd]))

theorem pySplitAux_skipWord (w : List Char) :
    ∀ (rest acc : List Char), (∀ c ∈ w, isPySpace c = false) →
      pySplitAux (w ++ rest) acc = pySplitAux rest (w.reverse ++ acc) := by
  induction w with
  | nil => intro rest acc _; simp
  | cons c cs ih =>
    intro rest acc hw
    have hc : isPySpace c = false := hw c (by simp)
    simp only [List.cons_append, pySplitAux, hc, Bool.false_eq_true, if_false,
      List.append_eq]
    rw [ih rest (c :: acc) (fun d hd => hw d (by simp [hd]))]
    simp

theorem pySplit_word_space (w rest : List Char) (s : Char) (hne : w ≠ [])
    (hw : ∀ c ∈ w, isPySpace c = false) (hs : isPySpace s = true) :
    pySplit (w ++ s :: rest) = w :: pySplit rest := by
  rw [pySplit, pySplitAux_skipWord w (s :: rest) [] hw]
  have hrev : w.reverse ++ [] ≠ [] := by simpa using hne
  simp only [pySplitAux, hs, if_true, List.append_nil]
  rw [if_neg (by simpa using hne)]
  simp [pySplit]

theorem pySplit_word (w : List Char) (hne : w ≠ [])
    (hw : ∀ c ∈ w, isPySpace c = false) : pySplit w = [w] := by
  have h := pySplitAux_skipWord w [] [] hw
  rw [List.append_nil] at h
  rw [pySplit, h]
  simp only [pySplitAux, List.append_nil]
  rw [if_neg (by simpa using hne)]
  simp

/-- The dict-update step of the parsing loop. -/
def dictUpdate (d : List Char → Option (List Char))
    (p : List Char × List Char) : List Char → Option (List Char) :=
  Function.update d p.1 (some p.2)

theorem foldl_update_lookup (ps : List (List Char × List Char)) :
    ∀ (d : List Char → Option (List Char)) (k : List Char),
      ps.foldl dictUpdate d k =
        match ps.reverse.find? (fun p => p.1 = k) with
        | some p => some p.2
        | none => d k := by
  induction ps with
  | nil => intro d k; simp
  | cons p ps ih =>
    intro d k
    rw [List.foldl_cons, ih]
    rw [List.reverse_cons, List.find?_append]
    rcases hfind : ps.reverse.find? (fun q => decide (q.1 = k)) with - | q
    · simp only [hfind, Option.none_or, List.find?_singleton]
      by_cases hk : p.1 = k
      · simp [hk, dictUpdate, Function.update]
      · simp [hk, dictUpdate, Function.update, Ne.symm hk]
    · simp [hfind]

theorem argfold_eq (toks : List (List Char)) :
    ∀ d : List Char → Option (List Char),
      toks.foldl
        (fun d tok =>
          if tok.contains '=' then
            Function.update d (eqKey tok) (some (stripQuotes (eqVal tok)))
          else d) d =
      (toks.filterMap
        (fun tok =>
          if tok.contains '=' then
            some (eqKey tok, stripQuotes (eqVal tok))
          else none)).foldl dictUpdate d := by
  induction toks with
  | nil => intro d; simp
  | cons tok toks ih =>
    intro d
    by_cases h : tok.contains '='
    · simp only [List.foldl_cons, List.filterMap_cons, h, if_true]
      exact ih _
    · simp only [List.foldl_cons, List.filterMap_cons, h, Bool.false_eq_true,
        if_false]
      exact ih _

theorem parseArgs_eq_lookupLast (s k : List Char) :
    parseArgs s k = lookupLast (argTokenPairs s) k := by
  by_cases hs : s = []
  · subst hs
    simp [parseArgs, argTokenPairs, pySplit, pySplitAux, lookupLast]
  · rw [parseArgs, if_neg hs, argfold_eq, foldl_update_lookup]
    rw [lookupLast, argTokenPairs]
    cases hq : ((pySplit s).filterMap
        (fun tok =>
          if tok.contains '=' then
            some (eqKey tok, stripQuotes (eqVal tok))
          else none)).reverse.find? (fun p => p.1 = k) with
    | none => simp [hq]
    | some q => simp [hq]

theorem contains_of_mem {a : Char} {l : List Char} (h : a ∈ l) :
    l.contains a = true := by
  simpa using h

theorem contains_eq_false {a : Char} {l : List Char} (h : a ∉ l) :
    l.contains a = false := by
  simpa using h

theorem stripQuotes_all_false (v : List Char)
    (h : ∀ c ∈ v, isQuote c = false) : stripQuotes v = v := by
  unfold stripQuotes
  rw [dropWhile_all_false _ _ h,
    dropWhile_all_false _ _ (fun c hc => h c (List.mem_reverse.mp hc))]
  simp

theorem stripQuotes_front (q : Char) (hq : isQuote q = true) (v : List Char)
    (h : ∀ c ∈ v, isQuote c = false) : stripQuotes (q :: v) = v := by
  unfold stripQuotes
  rw [List.dropWhile_cons, if_pos hq, dropWhile_all_false _ _ h,
    dropWhile_all_false _ _ (fun c hc => h c (List.mem_reverse.mp hc))]
  simp

theorem stripQuotes_wrap (q1 q2 : Char) (hq1 : isQuote q1 = true)
    (hq2 : isQuote q2 = true) (v : List Char)
    (h : ∀ c ∈ v, isQuote c = false) :
    stripQuotes (q1 :: (v ++ [q2])) = v := by
  unfold stripQuotes
  rw [List.dropWhile_cons, if_pos hq1]
  cases v with
  | nil => simp [List.dropWhile, hq2]
  | cons c v' =>
    have hc : isQuote c = false := h c (by simp)
    rw [List.cons_append, List.dropWhile_cons, if_neg (by simp [hc])]
    rw [show (c :: (v' ++ [q2])).reverse = q2 :: (v'.reverse ++ [c]) by simp]
    rw [List.dropWhile_cons, if_pos hq2]
    rw [dropWhile_all_false _ _ ?side]
    · simp
    case side =>
      intro d hd
      rcases List.mem_append.mp hd with hd | hd
      · exact h d (by simp [List.mem_reverse.mp hd])
      · simp only [List.mem_singleton] at hd
        subst hd
        exact hc

theorem takeWhile_all_true (p : Char → Bool) (l : List Char)
    (h : ∀ c ∈ l, p c = true) : l.takeWhile p = l := by
  induction l with
  | nil => rfl
  | cons c cs ih =>
    simp [List.takeWhile_cons, h c (by simp), ih (fun d hd => h d (by simp [hd]))]

theorem dropWhile_all_true (p : Char → Bool) (l : List Char)
    (h : ∀ c ∈ l, p c = true) : l.dropWhile p = [] := by
  induction l with
  | nil => rfl
  | cons c cs ih =>
    simp [List.dropWhile_cons, h c (by simp), ih (fun d hd => h d (by simp [hd]))]

theorem word_not_space (c : Char) (h : isWordChar c = true) :
    isPySpace c = false := by
  by_contra hs
  simp only [Bool.not_eq_false] at hs
  simp only [isPySpace, Bool.or_eq_true, decide_eq_true_eq] at hs
  rcases hs with ((((h1 | h1) | h1) | h1) | h1) | h1 <;>
    (subst h1; simp [isWordChar] at h)

theorem startsWithTool_false_of_head (c : Char) (cs : List Char)
    (h : ciEq c 'T' = false) : startsWithTool (c :: cs) = false := by
  rcases cs with - | ⟨b, - | ⟨d, - | ⟨e, - | ⟨f, rest⟩⟩⟩⟩ <;>
    simp [startsWithTool, h]

theorem hasToolCI_all_space (l : List Char)
    (h : ∀ c ∈ l, isPySpace c = true) : hasToolCI l = false := by
  induction l with
  | nil => rfl
  | cons c cs ih =>
    have hc : ciEq c 'T' = false := by
      have := h c (by simp)
      simp only [isPySpace, Bool.or_eq_true, decide_eq_true_eq] at this
      rcases this with ((((h1 | h1) | h1) | h1) | h1) | h1 <;>
        (subst h1; rfl)
    rw [hasToolCI, startsWithTool_false_of_head c cs hc,
      ih (fun d hd => h d (by simp [hd]))]
    rfl

theorem scanToolCalls_nil_of_no_tool (l : List Char)
    (h : hasToolCI l = false) : scanToolCalls l = [] := by
  induction l with
  | nil => simp [scanToolCalls]
  | cons c cs ih =>
    rw [hasToolCI, Bool.or_eq_false_iff] at h
    rw [scanToolCalls]
    simp only [h.1, Bool.false_eq_true, if_false]
    exact ih h.2

theorem scanToolCalls_cons_some (c : Char) (cs : List Char)
    (inv : List Char × List Char) (rest : List Char)
    (hs : startsWithTool (c :: cs) = true)
    (hm : matchToolTail ((c :: cs).drop 5) = some (inv, rest)) :
    scanToolCalls (c :: cs) = inv :: scanToolCalls rest := by
  rw [scanToolCalls, if_pos hs]
  split
  · rename_i inv' rest' h'
    rw [hm] at h'
    cases h'
    rfl
  · rename_i h'
    rw [hm] at h'
    cases h'

theorem scanToolCalls_cons_none (c : Char) (cs : List Char)
    (hs : startsWithTool (c :: cs) = true)
    (hm : matchToolTail ((c :: cs).drop 5) = none) :
    scanToolCalls (c :: cs) = scanToolCalls cs := by
  rw [scanToolCalls, if_pos hs]
  split
  · rename_i inv' rest' h'
    rw [hm] at h'
    cases h'
  · rfl

theorem matchToolTail_single (name args : List Char) (hne : name ≠ [])
    (hword : ∀ c ∈ name, isWordChar c = true)
    (hnl : ∀ c ∈ args, (c = '\n') = False)
    (hhead : ∀ c, args.head? = some c → isPySpace c = false) :
    matchToolTail (' ' :: (name ++ ' ' :: args)) =
      some ((name, args), []) := by
  have hdrop1 : (' ' :: (name ++ ' ' :: args)).dropWhile isPySpace =
      name ++ ' ' :: args := by
    rw [List.dropWhile_cons, if_pos (by rfl)]
    cases hn : name with
    | nil => exact absurd hn hne
    | cons n0 nt =>
      rw [List.cons_append, List.dropWhile_cons,
        if_neg (by simp [word_not_space n0 (hword n0 (by simp [hn]))])]
  have htake : (name ++ ' ' :: args).takeWhile isWordChar = name := by
    rw [takeWhile_all_front _ _ _ hword, List.takeWhile_cons]
    simp [isWordChar]
  have hdrop2 : (name ++ ' ' :: args).dropWhile isWordChar = ' ' :: args := by
    rw [dropWhile_all_front _ _ _ hword, List.dropWhile_cons]
    simp [isWordChar]
  have hdrop3 : (' ' :: args).dropWhile isPySpace = args := by
    rw [List.dropWhile_cons, if_pos (by rfl)]
    cases ha : args with
    | nil => rfl
    | cons a0 at' =>
      rw [List.dropWhile_cons, if_neg (by simp [hhead a0 (by simp [ha])])]
  have htakeargs : args.takeWhile (fun c => c ≠ '\n') = args :=
    takeWhile_all_true _ _ (fun c hc => by simp [hnl c hc])
  have hdropargs : args.dropWhile (fun c => c ≠ '\n') = [] :=
    dropWhile_all_true _ _ (fun c hc => by simp [hnl c hc])
  rw [matchToolTail]
  simp only [hdrop1, htake, hdrop2, hdrop3, htakeargs, hdropargs, hne,
    if_false]

theorem scan_single_invocation (name args : List Char) (hne : name ≠ [])
    (hword : ∀ c ∈ name, isWordChar c = true)
    (hnl : ∀ c ∈ args, (c = '\n') = False)
    (hhead : ∀ c, args.head? = some c → isPySpace c = false) :
    scanToolCalls ('T' :: 'O' :: 'O' :: 'L' :: ':' :: ' ' ::
      (name ++ ' ' :: args)) = [(name, args)] := by
  have hm := matchToolTail_single name args hne hword hnl hhead
  rw [scanToolCalls_cons_some _ _ (name, args) [] (by rfl)
    (by simpa using hm)]
  simp [scanToolCalls]

theorem scan_tool_then_space (ws : List Char)
    (hws : ∀ c ∈ ws, isPySpace c = true) :
    scanToolCalls ('T' :: 'O' :: 'O' :: 'L' :: ':' :: ws) = [] := by
  have hm : matchToolTail (('T' :: 'O' :: 'O' :: 'L' :: ':' :: ws).drop 5) =
      none := by
    simp only [List.drop_succ_cons, List.drop_zero]
    rw [matchToolTail]
    rw [dropWhile_all_true _ _ hws]
    simp
  rw [scanToolCalls_cons_none _ _ (by rfl) hm]
  refine scanToolCalls_nil_of_no_tool _ ?_
  rw [hasToolCI, startsWithTool_false_of_head _ _ (by rfl)]
  rw [hasToolCI, startsWithTool_false_of_head _ _ (by rfl)]
  rw [hasToolCI, startsWithTool_false_of_head _ _ (by rfl)]
  rw [hasToolCI, startsWithTool_false_of_head _ _ (by rfl)]
  rw [hasToolCI_all_space ws hws]
  rfl

theorem collect_fold (nodes : List Ast) :
    ∀ acc : List String × List String × List String,
      nodes.foldl collectStep acc =
        (acc.1 ++ nodes.filterMap fnName?,
         acc.2.1 ++ nodes.filterMap clsName?,
         acc.2.2 ++ nodes.flatMap impNames) := by
  induction nodes with
  | nil => intro acc; simp
  | cons n ns ih =>
    intro acc
    rw [List.foldl_cons, ih]
    cases n <;> simp [collectStep, fnName?, clsName?, impNames]

theorem collectNames_eq (nodes : List Ast) :
    collectNames nodes =
      (nodes.filterMap fnName?, nodes.filterMap clsName?,
       nodes.flatMap impNames) := by
  rw [collectNames, collect_fold]
  rfl

theorem walkAux_cons (n : Ast) (q : List Ast) :
    walkAux (n :: q) = n :: walkAux (q ++ n.children) := by
  rw [walkAux]

theorem walkAux_shift (q : List Ast) :
    ∀ acc : List Ast,
      walkAux (q ++ acc) = q ++ walkAux (acc ++ q.flatMap Ast.children) := by
  induction q with
  | nil => intro acc; simp
  | cons n q' ih =>
    intro acc
    rw [List.cons_append, walkAux_cons, List.append_assoc, ih (acc ++ n.children)]
    simp [List.flatMap_cons, List.append_assoc]

theorem walkAux_levels (q : List Ast) :
    walkAux q = q ++ walkAux (q.flatMap Ast.children) := by
  have h := walkAux_shift q []
  rw [List.append_nil, List.nil_append] at h
  exact h

theorem dfsNodesList_eq_flatMap (l : List Ast) :
    dfsNodesList l = l.flatMap dfsNodes := by
  induction l with
  | nil => rfl
  | cons a as ih => rw [dfsNodesList, ih, List.flatMap_cons]

theorem dfsNodes_eq (a : Ast) :
    dfsNodes a = a :: a.children.flatMap dfsNodes := by
  cases a <;> simp [dfsNodes, Ast.children, dfsNodesList_eq_flatMap]

theorem walkAux_perm_bound (n : Nat) :
    ∀ q : List Ast, astSizeList q ≤ n →
      List.Perm (walkAux q) (q.flatMap dfsNodes) := by
  induction n with
  | zero =>
    intro q hq
    cases q with
    | nil => simp [walkAux]
    | cons a as =>
      exfalso
      have h1 : 1 ≤ astSize a := by cases a <;> simp [astSize]
      simp only [astSizeList] at hq
      omega
  | succ n ih =>
    intro q hq
    cases q with
    | nil => simp [walkAux]
    | cons a as =>
      have hsz : astSizeList (as ++ a.children) ≤ n := by
        have h1 := astSizeList_enqueue_lt a as
        simp only [astSizeList] at hq h1 ⊢
        omega
      rw [walkAux_cons, List.flatMap_cons, dfsNodes_eq, List.cons_append]
      refine List.Perm.cons a ?_
      refine (ih (as ++ a.children) hsz).trans ?_
      rw [List.flatMap_append]
      exact List.perm_append_comm

theorem walk_perm_dfs (t : Ast) :
    List.Perm (walk t) (dfsNodes t) := by
  have h := walkAux_perm_bound (astSizeList [t]) [t] (Nat.le_refl _)
  simpa using h

theorem analyzeCodeContent_ok (parse : String → Except String Ast)
    (code : String) (t : Ast) (h : parse code = .ok t) :
    analyzeCodeContent parse code =
      analyzeRender (pySplit code.toList).length (walkFunctionNames t)
        (walkClassNames t) ((walkImportNames t).take 5) := by
  rw [analyzeCodeContent, h, analyzeRender]
  rw [walkFunctionNames, walkClassNames, walkImportNames]
  by_cases h1 : (collectNames (walk t)).1 = [] <;>
    by_cases h2 : (collectNames (walk t)).2.1 = [] <;>
      by_cases h3 : (collectNames (walk t)).2.2 = [] <;>
        simp [h1, h2, h3, List.take_eq_nil_iff, String.toList]

/-! ### The claims -/

/-- Claim C2: `buildMessages` returns one system message (the base prompt,
with the first 10 lines of a non-empty context excerpt appended under the
fixed heading), then the last 3 exchanges of the history as user/assistant
pairs in oldest-first order, then the current-turn user message; with a
history of 5 exchanges only the last 3 appear, and with empty history the
output is exactly `[system, user]`. -/
theorem buildMessages_window (ctx : List String) (hist : List Exchange)
    (u c : String) (rest : List String) (e1 e2 e3 e4 e5 : Exchange) :
    buildMessages (getSystemPrompt ctx) hist u =
      Msg.mk "system" (getSystemPrompt ctx) ::
        (hist.drop (hist.length - 3)).flatMap exchangePair ++
        [Msg.mk "user" u] ∧
    getSystemPrompt [] = systemPromptBase ∧
    getSystemPrompt (c :: rest) =
      systemPromptBase ++ "\n\nProject context:\n" ++
        String.intercalate "\n" ((c :: rest).take 10) ∧
    buildMessages (getSystemPrompt ctx) [] u =
      [Msg.mk "system" (getSystemPrompt ctx), Msg.mk "user" u] ∧
    buildMessages (getSystemPrompt ctx) [e1, e2, e3, e4, e5] u =
      [Msg.mk "system" (getSystemPrompt ctx),
       Msg.mk "user" e3.user, Msg.mk "assistant" e3.assistant,
       Msg.mk "user" e4.user, Msg.mk "assistant" e4.assistant,
       Msg.mk "user" e5.user, Msg.mk "assistant" e5.assistant,
       Msg.mk "user" u] := by
  refine ⟨buildMessages_eq _ _ _, rfl, ?_, ?_, ?_⟩
  · simp [getSystemPrompt]
  · simp [buildMessages_eq]
  · rw [buildMessages_eq]
    simp [exchangePair]

/-- Claim C9: a turn whose round trip fails — non-200 status, missing or
empty `choices`, or a request exception — leaves the conversation history
unchanged, and an exchange is appended only when the round trip returned
(non-empty) reply text. -/
theorem history_unchanged_on_failure (hist : List Exchange)
    (input now : String) :
    (∀ st ch, st ≠ 200 →
      processConversation hist input (.response st ch) now = hist) ∧
    (∀ m, processConversation hist input (.requestError m) now = hist) ∧
    processConversation hist input (.response 200 none) now = hist ∧
    processConversation hist input (.response 200 (some [])) now = hist ∧
    (∀ resp, processConversation hist input resp now ≠ hist →
      ∃ reply, sendToModel resp = some reply ∧ reply ≠ "" ∧
        processConversation hist input resp now =
          hist ++ [⟨input, reply, now⟩]) := by
  refine ⟨?_, ?_, ?_, ?_, ?_⟩
  · intro st ch hst
    simp [processConversation, sendToModel, hst]
  · intro m
    simp [processConversation, sendToModel]
  · simp [processConversation, sendToModel]
  · simp [processConversation, sendToModel]
  · intro resp hne
    by_cases htool : hasToolCI input.toList
    · simp only [String.toList] at htool
      exact absurd (by simp [processConversation, htool]) hne
    · simp only [String.toList] at htool
      rcases hr : sendToModel resp with - | reply
      · exact absurd (by simp [processConversation, htool, hr]) hne
      · by_cases hempty : reply = ""
        · exact absurd (by simp [processConversation, htool, hr, hempty]) hne
        · exact ⟨reply, rfl, hempty,
            by simp [processConversation, htool, hr, hempty]⟩

/-- Witness for C9 at concrete inputs: a 404, an exception, a missing and
an empty `choices` array each leave the history unchanged, and a
successful reply appends the exchange. -/
theorem history_unchanged_on_failure_instance :
    processConversation [] "hi" (.response 404 (some ["x"])) "t" = [] ∧
    processConversation [] "hi" (.requestError "Connection refused") "t" = [] ∧
    processConversation [] "hi" (.response 200 none) "t" = [] ∧
    processConversation [] "hi" (.response 200 (some [])) "t" = [] ∧
    (∃ reply, sendToModel (.response 200 (some ["ok"])) = some reply ∧
      reply ≠ "" ∧
      processConversation [] "hi" (.response 200 (some ["ok"])) "t" =
        [] ++ [⟨"hi", reply, "t"⟩]) := by
  refine ⟨(history_unchanged_on_failure [] "hi" "t").1 404 (some ["x"]) (by decide),
    (history_unchanged_on_failure [] "hi" "t").2.1 "Connection refused",
    (history_unchanged_on_failure [] "hi" "t").2.2.1,
    (history_unchanged_on_failure [] "hi" "t").2.2.2.1,
    (history_unchanged_on_failure [] "hi" "t").2.2.2.2
      (.response 200 (some ["ok"])) (by decide)⟩

/-- Claim C8: each built-in tool with a required argument, executed with
that argument absent from the parsed arguments, returns the error string
naming the missing parameter, as a returned value rather than an
exception. -/
theorem missing_argument_errors (env : Env) (a1 a2 a3 a4 : String)
    (h1 : parseArgs a1.toList "path".toList = none)
    (h2 : parseArgs a2.toList "path".toList = none)
    (h3 : parseArgs a3.toList "command".toList = none)
    (h4 : parseArgs a4.toList "code".toList = none) :
    executeTool env "read_file" a1 = "Error: path parameter required" ∧
    executeTool env "write_file" a2 = "Error: path parameter required" ∧
    executeTool env "execute_command" a3 =
      "Error: command parameter required" ∧
    executeTool env "analyze_code" a4 = "Error: code parameter required" := by
  simp [String.toList] at h1 h2 h3 h4
  refine ⟨?_, ?_, ?_, ?_⟩
  · simp [executeTool, pyGetD, h1]
  · simp [executeTool, pyGetD, h2]
  · simp [executeTool, pyGetD, h3]
  · simp [executeTool, pyGetD, h4]

/-- Witness for C8: the empty raw-argument string parses to an empty
argument map, and each of the four tools reports its missing parameter. -/
theorem missing_argument_errors_instance :
    executeTool sampleEnv "read_file" "" = "Error: path parameter required" ∧
    executeTool sampleEnv "write_file" "" = "Error: path parameter required" ∧
    executeTool sampleEnv "execute_command" "" =
      "Error: command parameter required" ∧
    executeTool sampleEnv "analyze_code" "" =
      "Error: code parameter required" :=
  missing_argument_errors sampleEnv "" "" "" ""
    (by decide) (by decide) (by decide) (by decide)

/-- Counterexample for C4: tool-name dispatch is case-sensitive: the
invocation name `READ_FILE` does not dispatch to `read_file` but resolves
to the unknown-tool result, while the lower-case name reads the file. -/
theorem dispatch_not_case_insensitive :
    executeTool sampleEnv "read_file" "path=x" = "hello" ∧
    executeTool sampleEnv "READ_FILE" "path=x" = "Unknown tool: READ_FILE" ∧
    executeTool sampleEnv "READ_FILE" "path=x" ≠
      executeTool sampleEnv "read_file" "path=x" := by
  refine ⟨by decide, by decide, by decide⟩

/-- Claim C4 as amended: only the `TOOL:` keyword is matched
case-insensitively; the tool name is matched against the registry
exactly (case-sensitively), and an invocation whose name matches no
registered tool — including an upper-case spelling of a registered name —
is not dropped: it yields a `ToolResult` naming the unknown tool
verbatim. -/
theorem unknown_tool_verbatim (env : Env) (name args : String)
    (h : name ∉ (["read_file", "write_file", "execute_command",
      "analyze_code", "list_files"] : List String)) :
    executeTool env name args = "Unknown tool: " ++ name := by
  simp only [List.mem_cons, List.mem_singleton, not_or] at h
  obtain ⟨n1, n2, n3, n4, ⟨n5, -⟩⟩ := h
  simp [executeTool, n1, n2, n3, n4, n5]

/-- Witness for C4's amended theorem: the upper-case name `READ_FILE` is
not in the registry and yields the verbatim unknown-tool result. -/
theorem unknown_tool_verbatim_instance :
    executeTool sampleEnv "READ_FILE" "path=x" =
      "Unknown tool: " ++ "READ_FILE" :=
  unknown_tool_verbatim sampleEnv "READ_FILE" "path=x" (by decide)

/-- Claim C5: the key-to-value map is built by splitting the raw argument
string on whitespace and splitting each token at its first `'='`; a token
with no `'='` is ignored; on duplicate keys the last occurrence wins; and
surrounding quote characters (single or double) are stripped from each
value.  The parsing loop's dict equals the last-occurrence lookup over
the declarative token pairs, and stripping removes surrounding quotes. -/
theorem argument_parsing_spec (s k v : List Char)
    (hv : ∀ c ∈ v, isQuote c = false) :
    parseArgs s k = lookupLast (argTokenPairs s) k ∧
    stripQuotes v = v ∧
    stripQuotes ('"' :: (v ++ ['"'])) = v ∧
    stripQuotes ('\'' :: (v ++ ['\''])) = v :=
  ⟨parseArgs_eq_lookupLast s k,
   stripQuotes_all_false v hv,
   stripQuotes_wrap '"' '"' rfl rfl v hv,
   stripQuotes_wrap '\'' '\'' rfl rfl v hv⟩

/-- Witness for C5 at a concrete raw argument string with a duplicate
key, a token without `'='` and a quoted value: the loop's dict agrees
with last-occurrence lookup, the duplicate's last value (quotes
stripped) wins, and the `'='`-free token binds nothing. -/
theorem argument_parsing_spec_instance :
    parseArgs "a=1 junk a=\"2\"".toList "a".toList =
      lookupLast (argTokenPairs "a=1 junk a=\"2\"".toList) "a".toList ∧
    stripQuotes ('"' :: ("hi".toList ++ ['"'])) = "hi".toList ∧
    parseArgs "a=1 junk a=\"2\"".toList "a".toList = some "2".toList ∧
    parseArgs "a=1 junk a=\"2\"".toList "junk".toList = none := by
  have h := argument_parsing_spec "a=1 junk a=\"2\"".toList "a".toList
    "hi".toList (by decide)
  exact ⟨h.1, h.2.2.1, by decide, by decide⟩

/-- Claim C10: a quoted value containing internal whitespace does not
span the whitespace: for a raw argument string
`k="<v1> <v2>"` the key `k` is bound to `v1` alone (quote stripped), and
the trailing token `<v2>"`, containing no `'='`, is silently discarded,
so the parsed map holds exactly the one binding `k ↦ v1`. -/
theorem quoted_value_not_spanning (k v1 v2 : List Char)
    (hk1 : k ≠ [])
    (hk : ∀ c ∈ k, isPySpace c = false ∧ c ≠ '=')
    (hv1 : ∀ c ∈ v1, isPySpace c = false ∧ isQuote c = false)
    (hv2 : ∀ c ∈ v2, isPySpace c = false ∧ c ≠ '=') :
    argTokenPairs (k ++ '=' :: '"' :: (v1 ++ ' ' :: (v2 ++ ['"']))) =
      [(k, v1)] ∧
    ∀ k', parseArgs (k ++ '=' :: '"' :: (v1 ++ ' ' :: (v2 ++ ['"']))) k' =
      if k' = k then some v1 else none := by
  have hshape : k ++ '=' :: '"' :: (v1 ++ ' ' :: (v2 ++ ['"'])) =
      (k ++ '=' :: '"' :: v1) ++ ' ' :: (v2 ++ ['"']) := by
    simp
  have hw1ne : k ++ '=' :: '"' :: v1 ≠ [] := by
    simp [hk1]
  have hw1sp : ∀ c ∈ k ++ '=' :: '"' :: v1, isPySpace c = false := by
    intro c hc
    rcases List.mem_append.mp hc with hc | hc
    · exact (hk c hc).1
    · rcases List.mem_cons.mp hc with hc | hc
      · subst hc; rfl
      · rcases List.mem_cons.mp hc with hc | hc
        · subst hc; rfl
        · exact (hv1 c hc).1
  have hw2ne : v2 ++ ['"'] ≠ [] := by simp
  have hw2sp : ∀ c ∈ v2 ++ ['"'], isPySpace c = false := by
    intro c hc
    rcases List.mem_append.mp hc with hc | hc
    · exact (hv2 c hc).1
    · simp only [List.mem_singleton] at hc
      subst hc; rfl
  have hsplit : pySplit (k ++ '=' :: '"' :: (v1 ++ ' ' :: (v2 ++ ['"']))) =
      [k ++ '=' :: '"' :: v1, v2 ++ ['"']] := by
    rw [hshape, pySplit_word_space _ _ _ hw1ne hw1sp (by decide),
      pySplit_word _ hw2ne hw2sp]
  have hc1 : (k ++ '=' :: '"' :: v1).contains '=' = true :=
    contains_of_mem (by simp)
  have hc2 : (v2 ++ ['"']).contains '=' = false := by
    refine contains_eq_false ?_
    intro hmem
    rcases List.mem_append.mp hmem with hmem | hmem
    · exact (hv2 _ hmem).2 rfl
    · simp at hmem
  have hkey : eqKey (k ++ '=' :: '"' :: v1) = k := by
    rw [eqKey, takeWhile_all_front _ _ _
      (fun c hc => by simp [(hk c hc).2])]
    simp [List.takeWhile_cons]
  have hval : eqVal (k ++ '=' :: '"' :: v1) = '"' :: v1 := by
    rw [eqVal, dropWhile_all_front _ _ _
      (fun c hc => by simp [(hk c hc).2])]
    simp [List.dropWhile_cons]
  have hstrip : stripQuotes ('"' :: v1) = v1 :=
    stripQuotes_front '"' rfl v1 (fun c hc => (hv1 c hc).2)
  have hnemem : '=' ∉ v2 := fun hmem => (hv2 _ hmem).2 rfl
  have hpairs : argTokenPairs (k ++ '=' :: '"' :: (v1 ++ ' ' :: (v2 ++ ['"']))) =
      [(k, v1)] := by
    rw [argTokenPairs, hsplit]
    simp [hc1, hc2, hkey, hval, hstrip, hnemem]
  refine ⟨hpairs, ?_⟩
  intro k'
  rw [parseArgs_eq_lookupLast, hpairs, lookupLast]
  by_cases hk' : k = k'
  · subst hk'
    simp
  · simp [List.find?_singleton, hk', Ne.symm hk']

/-- Claim C1: for every tool name and raw argument string the executor
returns a string, and every internal fault is rendered as an error
string at the tool boundary: `execute_command` passes the 30-second
timeout to the subprocess call, on completion returns the three-part
report of exit code, stdout and stderr, and a timeout (like any other
subprocess fault) yields a tool-error string; a failing read, write or
directory listing likewise yields a tool-error string and never an
exception. -/
theorem executor_total_spec (env : Env)
    (aCmd aTmo aRead aWrite aList : String) (rc : Int)
    (sout serr mTmo mRead mWrite mList : String)
    (hcmd : pyGetD (parseArgs aCmd.toList) "command" "" ≠ "")
    (hok : env.runCommand (pyGetD (parseArgs aCmd.toList) "command" "") 30 =
      .ok (rc, sout, serr))
    (htmo : pyGetD (parseArgs aTmo.toList) "command" "" ≠ "")
    (herr : env.runCommand (pyGetD (parseArgs aTmo.toList) "command" "") 30 =
      .error mTmo)
    (hrd : pyGetD (parseArgs aRead.toList) "path" "" ≠ "")
    (hrderr : env.readFile (pyGetD (parseArgs aRead.toList) "path" "") =
      .error mRead)
    (hwr : pyGetD (parseArgs aWrite.toList) "path" "" ≠ "")
    (hwrerr : env.writeFile (pyGetD (parseArgs aWrite.toList) "path" "")
      (pyGetD (parseArgs aWrite.toList) "content" "") = .error mWrite)
    (hlserr : env.listDir (pyGetD (parseArgs aList.toList) "path" ".") =
      .error mList) :
    executeTool env "execute_command" aCmd =
      "Exit code: " ++ toString rc ++ "\nOutput: " ++ sout ++
        "\nError: " ++ serr ∧
    executeTool env "execute_command" aTmo = "Tool error: " ++ mTmo ∧
    executeTool env "read_file" aRead = "Tool error: " ++ mRead ∧
    executeTool env "write_file" aWrite = "Tool error: " ++ mWrite ∧
    executeTool env "list_files" aList = "Tool error: " ++ mList := by
  simp [String.toList] at hcmd hok htmo herr hrd hrderr hwr hwrerr hlserr
  refine ⟨?_, ?_, ?_, ?_, ?_⟩
  · simp [executeTool, hcmd, hok]
  · simp [executeTool, htmo, herr]
  · simp [executeTool, hrd, hrderr]
  · simp [executeTool, hwr, hwrerr]
  · simp [executeTool, hlserr]

/-- Witness for C1: under the sample environment, a completing command
reports exit code 7 with its captured streams, a timed-out command and a
failing read, write and listing each return tool-error strings. -/
theorem executor_total_spec_instance :
    executeTool sampleEnv "execute_command" "command=exitseven" =
      "Exit code: " ++ toString (7 : Int) ++ "\nOutput: " ++ "" ++
        "\nError: " ++ "" ∧
    executeTool sampleEnv "execute_command" "command=sleep60" =
      "Tool error: " ++ "Command 'sleep 60' timed out after 30 seconds" ∧
    executeTool sampleEnv "read_file" "path=nope" =
      "Tool error: " ++ "[Errno 2] No such file or directory: 'nope'" ∧
    executeTool sampleEnv "write_file" "path=ro.txt content=x" =
      "Tool error: " ++ "[Errno 13] Permission denied: 'ro.txt'" ∧
    executeTool sampleEnv "list_files" "path=gone" =
      "Tool error: " ++ "[Errno 2] No such file or directory: 'gone'" :=
  executor_total_spec sampleEnv "command=exitseven" "command=sleep60"
    "path=nope" "path=ro.txt content=x" "path=gone" 7 ""
    "" "Command 'sleep 60' timed out after 30 seconds"
    "[Errno 2] No such file or directory: 'nope'"
    "[Errno 13] Permission denied: 'ro.txt'"
    "[Errno 2] No such file or directory: 'gone'"
    (by decide) (by decide) (by decide) (by decide) (by decide) (by decide)
    (by decide) (by decide) (by decide)

/-- Claim C7: text containing no occurrence of `TOOL:` in any letter
case parses to the empty invocation sequence; the input
`TOOL: read_file path=/tmp/x.txt` parses to exactly one invocation with
name `read_file` and raw arguments `path=/tmp/x.txt`; and executing
`read_file` on a readable path returns the file's exact contents while a
failing read returns an error string rather than raising. -/
theorem no_tool_parse_and_read_file (t : String) (env : Env)
    (aOk aBad c e : String)
    (ht : hasToolCI t.toList = false)
    (hokp : pyGetD (parseArgs aOk.toList) "path" "" ≠ "")
    (hok : env.readFile (pyGetD (parseArgs aOk.toList) "path" "") = .ok c)
    (hbadp : pyGetD (parseArgs aBad.toList) "path" "" ≠ "")
    (hbad : env.readFile (pyGetD (parseArgs aBad.toList) "path" "") =
      .error e) :
    findToolCalls t = [] ∧
    findToolCalls "TOOL: read_file path=/tmp/x.txt" =
      [("read_file", "path=/tmp/x.txt")] ∧
    executeTool env "read_file" aOk = c ∧
    executeTool env "read_file" aBad = "Tool error: " ++ e := by
  simp [String.toList] at hokp hok hbadp hbad
  refine ⟨?_, ?_, ?_, ?_⟩
  · rw [findToolCalls, scanToolCalls_nil_of_no_tool _ ht]
    rfl
  · simp +decide [findToolCalls, scanToolCalls, matchToolTail,
      startsWithTool, ciEq, isPySpace, isWordChar, String.toList]
  · simp [executeTool, hokp, hok]
  · simp [executeTool, hbadp, hbad]

/-- Witness for C7: plain conversational text parses to no invocation,
the sample file `x` is read back verbatim and the missing path `nope`
produces the error string. -/
theorem no_tool_parse_and_read_file_instance :
    findToolCalls "write a python function" = [] ∧
    findToolCalls "TOOL: read_file path=/tmp/x.txt" =
      [("read_file", "path=/tmp/x.txt")] ∧
    executeTool sampleEnv "read_file" "path=x" = "hello" ∧
    executeTool sampleEnv "read_file" "path=nope" =
      "Tool error: " ++ "[Errno 2] No such file or directory: 'nope'" :=
  no_tool_parse_and_read_file "write a python function" sampleEnv
    "path=x" "path=nope" "hello" "[Errno 2] No such file or directory: 'nope'"
    (by decide) (by decide) (by decide) (by decide) (by decide)

/-- Counterexample for C3: `ast.walk` traverses breadth-first, so the
collected names are not in document order once a definition is nested:
on `def f():\n    def g(): pass\ndef h(): pass` the analyzer collects
`f, h, g` while document order is `f, g, h`. -/
theorem analyzer_not_document_order :
    walkFunctionNames nestedAst = ["f", "h", "g"] ∧
    docFunctionNames nestedAst = ["f", "g", "h"] ∧
    walkFunctionNames nestedAst ≠ docFunctionNames nestedAst := by
  have h1 : walkFunctionNames nestedAst = ["f", "h", "g"] := by
    simp [nestedAst, walkFunctionNames, walk, walkAux, Ast.children,
      collectNames, collectStep, fnName?, List.foldl_cons]
  have h2 : docFunctionNames nestedAst = ["f", "g", "h"] := by decide
  exact ⟨h1, h2, by rw [h1, h2]; decide⟩

/-- Claim C3 as amended: for every source text that parses, the analyzer
collects every function definition's name, every class definition's name
and every import target (plain imports by module name, from-imports as
`from <module>`) — the same names, each exactly as often, as a
document-order reading — but in breadth-first order: the module-level
names come first in document order, followed by the names of nested
definitions.  Only the first 5 import names are displayed, the reported
line count is the number of whitespace-delimited tokens of the raw text,
a text that fails to parse yields `Syntax Error: <diagnostic>` and no
collected names, and the three-line example yields functions `f`,
classes `C`, imports `os`. -/
theorem analyzer_spec (parse : String → Except String Ast)
    (codeE codeO codeX : String) (t : Ast) (body : List Ast) (err : String)
    (herr : parse codeE = .error err)
    (hok : parse codeO = .ok t)
    (hex : parse codeX = .ok exampleAst) :
    analyzeCodeContent parse codeE = "Syntax Error: " ++ err ∧
    analyzeCodeContent parse codeO =
      analyzeRender (pySplit codeO.toList).length (walkFunctionNames t)
        (walkClassNames t) ((walkImportNames t).take 5) ∧
    walkFunctionNames (.module body) =
      body.filterMap fnName? ++
        (walkAux (body.flatMap Ast.children)).filterMap fnName? ∧
    walkClassNames (.module body) =
      body.filterMap clsName? ++
        (walkAux (body.flatMap Ast.children)).filterMap clsName? ∧
    walkImportNames (.module body) =
      body.flatMap impNames ++
        (walkAux (body.flatMap Ast.children)).flatMap impNames ∧
    List.Perm (walkFunctionNames t) (docFunctionNames t) ∧
    List.Perm (walkClassNames t) (docClassNames t) ∧
    List.Perm (walkImportNames t) (docImportNames t) ∧
    analyzeCodeContent parse codeX =
      "Lines of code: " ++ toString (pySplit codeX.toList).length ++
        "\nFunctions: f\nClasses: C\nImports: os" := by
  have hlevel : walk (Ast.module body) =
      Ast.module body :: (body ++ walkAux (body.flatMap Ast.children)) := by
    rw [walk, walkAux_cons, List.nil_append, Ast.children, walkAux_levels]
  refine ⟨?_, analyzeCodeContent_ok parse codeO t hok, ?_, ?_, ?_, ?_, ?_, ?_, ?_⟩
  · rw [analyzeCodeContent, herr]
  · rw [walkFunctionNames, collectNames_eq, hlevel]
    simp [fnName?]
  · rw [walkClassNames, collectNames_eq, hlevel]
    simp [clsName?]
  · rw [walkImportNames, collectNames_eq, hlevel]
    simp [impNames]
  · rw [walkFunctionNames, collectNames_eq, docFunctionNames]
    exact (walk_perm_dfs t).filterMap fnName?
  · rw [walkClassNames, collectNames_eq, docClassNames]
    exact (walk_perm_dfs t).filterMap clsName?
  · rw [walkImportNames, collectNames_eq, docImportNames]
    exact (walk_perm_dfs t).flatMap_right impNames
  · rw [analyzeCodeContent_ok parse codeX exampleAst hex]
    have hfns : walkFunctionNames exampleAst = ["f"] := by
      simp [exampleAst, walkFunctionNames, walk, walkAux, Ast.children,
        collectNames, collectStep, fnName?]
    have hcls : walkClassNames exampleAst = ["C"] := by
      simp [exampleAst, walkClassNames, walk, walkAux, Ast.children,
        collectNames, collectStep, clsName?]
    have himps : walkImportNames exampleAst = ["os"] := by
      simp [exampleAst, walkImportNames, walk, walkAux, Ast.children,
        collectNames, collectStep, impNames]
    rw [hfns, hcls, himps, analyzeRender]
    simp [String.intercalate, String.intercalate.go, String.append_assoc]

/-- Witness for C3's amended theorem: the sample parser rejects
`def f(:` with a diagnostic and parses the three-line example to its
tree, whose analysis reports 8 whitespace tokens, functions `f`, classes
`C` and imports `os`. -/
theorem analyzer_spec_instance :
    analyzeCodeContent sampleEnv.parse "def f(:" =
      "Syntax Error: " ++ "invalid syntax (<unknown>, line 1)" ∧
    List.Perm (walkFunctionNames exampleAst) (docFunctionNames exampleAst) ∧
    analyzeCodeContent sampleEnv.parse exampleCode =
      "Lines of code: " ++ toString (pySplit exampleCode.toList).length ++
        "\nFunctions: f\nClasses: C\nImports: os" ∧
    toString (pySplit exampleCode.toList).length = "8" := by
  have h := analyzer_spec sampleEnv.parse "def f(:" exampleCode exampleCode
    exampleAst [] "invalid syntax (<unknown>, line 1)"
    (by rfl) (by rfl) (by rfl)
  exact ⟨h.1, h.2.2.2.2.2.1, h.2.2.2.2.2.2.2.2, by decide⟩

/-- Counterexample for C6: the scan is not line-by-line.  On the input
`TOOL:\nread_file path=x` the pattern's whitespace class crosses the
newline, so the code extracts one invocation whose name and raw
arguments come from the second line, while the claim's line-independent
reading (with `TOOL:` followed by no identifier on its own line) yields
no invocation at all. -/
theorem toolcall_not_line_independent :
    findToolCalls "TOOL:\nread_file path=x" = [("read_file", "path=x")] ∧
    lineToolCalls "TOOL:\nread_file path=x" = [] ∧
    findToolCalls "TOOL:\nread_file path=x" ≠
      lineToolCalls "TOOL:\nread_file path=x" := by
  have h1 : findToolCalls "TOOL:\nread_file path=x" =
      [("read_file", "path=x")] := by
    simp +decide [findToolCalls, scanToolCalls, matchToolTail,
      startsWithTool, ciEq, isPySpace, isWordChar, String.toList]
  have h2 : lineToolCalls "TOOL:\nread_file path=x" = [] := by decide
  exact ⟨h1, h2, by rw [h1, h2]; decide⟩

/-- Claim C6 as amended: the scan is a single pass over the whole input,
not line-by-line: after `TOOL:` (and after the name) any whitespace run,
newlines included, is skipped, so the name and raw arguments may come
from a later line than the `TOOL:` token; the raw arguments are the
remainder of the line on which they begin.  When the whole invocation
lies on one line this gives the line's remainder, an occurrence of
`TOOL:` followed only by whitespace to the end of the input yields no
invocation, and `TOOL:\nread_file path=x` yields the invocation
`(read_file, path=x)` spanning two lines. -/
theorem toolcall_scan_amended (name args ws : String)
    (hne : name ≠ "")
    (hword : ∀ c ∈ name.toList, isWordChar c = true)
    (hnl : ∀ c ∈ args.toList, c ≠ '\n')
    (hhead : ∀ c, args.toList.head? = some c → isPySpace c = false)
    (hws : ∀ c ∈ ws.toList, isPySpace c = true) :
    findToolCalls ("TOOL: " ++ name ++ " " ++ args) = [(name, args)] ∧
    findToolCalls ("TOOL:" ++ ws) = [] ∧
    findToolCalls "TOOL:\nread_file path=x" = [("read_file", "path=x")] := by
  refine ⟨?_, ?_, ?_⟩
  · have hl : ("TOOL: " ++ name ++ " " ++ args).toList =
        'T' :: 'O' :: 'O' :: 'L' :: ':' :: ' ' ::
          (name.toList ++ ' ' :: args.toList) := by
      simp [String.toList]
    have hne' : name.toList ≠ [] := by
      intro h
      apply hne
      cases name with
      | mk d =>
        simp only [String.toList] at h
        simp only [h]
    rw [findToolCalls, hl, scan_single_invocation name.toList args.toList
      hne' hword (fun c hc => eq_false (hnl c hc)) hhead]
    simp
  · have hl : ("TOOL:" ++ ws).toList =
        'T' :: 'O' :: 'O' :: 'L' :: ':' :: ws.toList := by
      simp [String.toList]
    rw [findToolCalls, hl, scan_tool_then_space ws.toList hws]
    rfl
  · simp +decide [findToolCalls, scanToolCalls, matchToolTail,
      startsWithTool, ciEq, isPySpace, isWordChar, String.toList]

/-- Witness for C6's amended theorem: a one-line invocation yields the
line's remainder as raw arguments, `TOOL:` followed by blanks yields
nothing, and the two-line input yields the cross-line invocation. -/
theorem toolcall_scan_amended_instance :
    findToolCalls ("TOOL: " ++ "read_file" ++ " " ++ "path=x") =
      [("read_file", "path=x")] ∧
    findToolCalls ("TOOL:" ++ "  ") = [] ∧
    findToolCalls "TOOL:\nread_file path=x" = [("read_file", "path=x")] := by
  have h := toolcall_scan_amended "read_file" "path=x" "  "
    (by decide) (by decide) (by decide)
    (by intro c hc; cases hc; rfl) (by decide)
  exact ⟨h.1, h.2.1, h.2.2⟩

/-- Witness for C10 at the spec's example `content="hello world"`: the
key `content` is bound to `hello` alone and `world"` is discarded. -/
theorem quoted_value_not_spanning_instance :
    argTokenPairs ("content".toList ++ '=' :: '"' ::
        ("hello".toList ++ ' ' :: ("world".toList ++ ['"']))) =
      [("content".toList, "hello".toList)] ∧
    parseArgs ("content".toList ++ '=' :: '"' ::
        ("hello".toList ++ ' ' :: ("world".toList ++ ['"'])))
      "content".toList = some "hello".toList ∧
    ("content".toList ++ '=' :: '"' ::
        ("hello".toList ++ ' ' :: ("world".toList ++ ['"']))) =
      "content=\"hello world\"".toList := by
  have h := quoted_value_not_spanning "content".toList "hello".toList
    "world".toList (by decide) (by decide) (by decide) (by decide)
  refine ⟨h.1, ?_, by decide⟩
  rw [h.2 "content".toList]
  decide

end AiCode
